import Mathlib

/-!
Shallow embedding of `src/core/bft_bridge.rs` from the cita-bft repository.

The file models the `Processor` event loop, its per-height caches
(`proof`, `pre_hash`, `version`, `get_block_resps`), its pending-request
queues, the `BridgeMsg` protocol between the `BftBridge` capability
adapter and the `Processor`, and the pure capability functions
(`check_block`, `check_sig`, `crypt_hash`, `sign`, `get_block`,
`transmit`, `commit`, `extract_status`).

Modelling conventions:
- Byte strings (`Vec<u8>`, `H256`, addresses, signatures) are `List Nat`.
- Rust `HashMap` caches are association lists; `entry(k).or_insert(v)`
  is `hmOrInsert` (insert only when the key is absent), matching the
  first-write-wins behaviour of the source.  Iteration order of a Rust
  `HashMap` is unspecified; the association list built by `bumpCount`
  fixes first-insertion order, which is one admissible order.
- External crates (crypto signing and recovery, protobuf decoding,
  bincode serialization, the transaction-root hash, wall-clock time) are
  parameters collected in an `Env` record; the bus handlers receive the
  already-decoded message payloads, since wire decoding lives outside
  this repository.
- `u32` counters wrap, so the per-address counter of `extract_status`
  is taken modulo 2^32.
- Channel sends become an explicit output list `List OutMsg`; each
  constructor of `OutMsg` names the channel the source sends on
  (`bft_actuator`, `p2b_b`, `p2b_f`, `p2b_s`, `p2b_t`, `p2r`).
- `Processor::get_block` in the source serializes the assembled block
  to its compact wire form via the external libproto crate; the
  embedding returns the assembled `Block` record itself, since the
  serialization is outside this repository.
-/

namespace CitaBft

/-- Association-list lookup, modelling `HashMap::get`. -/
def hmLookup {κ α : Type} [DecidableEq κ] : List (κ × α) → κ → Option α
  | [], _ => none
  | (k2, v) :: rest, k => if k = k2 then some v else hmLookup rest k

/-- Association-list conditional insert, modelling `HashMap::entry(k).or_insert(v)`:
the map is unchanged when the key is present, otherwise the pair is added. -/
def hmOrInsert {κ α : Type} [DecidableEq κ] (m : List (κ × α)) (k : κ) (v : α) : List (κ × α) :=
  if (hmLookup m k).isSome then m else (k, v) :: m

/-- Wrap-around modulus of a Rust u32 counter. -/
def U32M : Nat := 4294967296

/-- Commit certificate of the external bft crate (`bft::Proof`):
block hash, height, round and the precommit address-to-signature map. -/
structure Proof where
  height : Nat
  round : Nat
  block_hash : List Nat
  precommit_votes : List (List Nat × List Nat)
deriving DecidableEq

/-- Opaque stand-in for `bft::Commit`; the bridge never inspects it. -/
structure Commit where
  data : Nat
deriving DecidableEq

/-- Authority entry of the derived status (`bft::Node`). -/
structure Node where
  address : List Nat
  proposal_weight : Nat
  vote_weight : Nat
deriving DecidableEq

/-- Consensus status handed to the actuator (`bft::Status`). -/
structure Status where
  height : Nat
  interval : Option Nat
  authority_list : List Node
deriving DecidableEq

/-- Decoded payload of a `Chain >> RichStatus` bus message. -/
structure RichStatus where
  height : Nat
  hash : List Nat
  version : Nat
  interval : Nat
  nodes : List (List Nat)
deriving DecidableEq

/-- Decoded payload of an `Auth >> BlockTxs` bus message: a transaction
batch for a height. -/
structure BlockTxs where
  height : Nat
  body : List Nat
deriving DecidableEq

/-- Proof-kind discriminator of the wire proof (`ProofType`). -/
inductive ProofType where
  | Bft
deriving DecidableEq

/-- Serializable proof payload (`proof::BftProof`), built by `to_bft_proof`. -/
structure BftProof where
  proposal : List Nat
  height : Nat
  round : Nat
  commits : List (List Nat × List Nat)
deriving DecidableEq

/-- Wire proof embedded in a block header (`libproto::Proof`).  The
bincode-serialized content is kept structured, serialization being
external. -/
structure ProtoProof where
  content : BftProof
  field_type : ProofType
deriving DecidableEq

/-- Assembled block (`libproto::blockchain::Block`) with the header
fields `Processor::get_block` sets. -/
structure Block where
  version : Nat
  body : List Nat
  prevhash : List Nat
  proof : ProtoProof
  timestamp : Nat
  height : Nat
  transactions_root : List Nat
  proposer : List Nat
deriving DecidableEq

/-- Engine event type (`bft::BftMsg`); `Pause` and `Clear` stand for the
engine message kinds that are neither proposals nor votes. -/
inductive BftMsg where
  | Proposal (encode : List Nat)
  | Vote (encode : List Nat)
  | Status (status : CitaBft.Status)
  | Pause
  | Clear
deriving DecidableEq

/-- Request and response variants exchanged between the capability
adapter and the Processor (`BridgeMsg` in the source). -/
inductive BridgeMsg where
  | CheckBlockReq (block : List Nat) (height : Nat)
  | CheckBlockResp (is_pass : Bool)
  | CheckTxReq (block : List Nat) (height : Nat) (round : Nat)
  | CheckTxResp (is_pass : Bool)
  | Transmit (msg : BftMsg)
  | Commit (commit : CitaBft.Commit)
  | GetBlockReq (height : Nat)
  | GetBlockResp (block : Option Block)
  | SignReq (hash : List Nat)
  | SignResp (sig : Option (List Nat))
deriving DecidableEq

/-- Outbound bus topics the Processor publishes on. -/
inductive Topic where
  | ConsensusCompactSignedProposal
  | ConsensusRawBytes
  | ConsensusVerifyBlockReq
deriving DecidableEq

/-- Payload of an outbound bus publication: either the raw engine bytes
or the verification request built by `get_block_req_msg` (height, round
and the compact block taken from the proposal bytes). -/
inductive PubPayload where
  | raw (encode : List Nat)
  | verifyBlockReq (block : List Nat) (height : Nat) (round : Nat)
deriving DecidableEq

/-- Message sent by the Processor, tagged by the channel of the source:
`toActuator` is `bft_actuator.send`, `toBridgeB/F/S/T` are the
`p2b_b/p2b_f/p2b_s/p2b_t` response channels, `toBus` is `p2r`. -/
inductive OutMsg where
  | toActuator (msg : BftMsg)
  | toBridgeB (msg : BridgeMsg)
  | toBridgeF (msg : BridgeMsg)
  | toBridgeS (msg : BridgeMsg)
  | toBridgeT (msg : BridgeMsg)
  | toBus (topic : Topic) (payload : PubPayload)
deriving DecidableEq

/-- Decoded inbound bus message, classified by routing key as in the
`match rt_key` of `Processor::start`; `other` covers unrecognized topics. -/
inductive BusMsg where
  | NetCompactSignedProposal (body : List Nat)
  | NetRawBytes (body : List Nat)
  | ChainRichStatus (status : RichStatus)
  | AuthBlockTxs (block_txs : BlockTxs)
  | AuthVerifyBlockResp
  | SnapshotReq
  | other
deriving DecidableEq

/-- One iteration input of the `Processor::start` select loop: either a
bus message (`p4r`) or a bridge request (`p4b`). -/
inductive Event where
  | bus (msg : BusMsg)
  | bridge (msg : BridgeMsg)
deriving DecidableEq

/-- External dependencies of the bridge, kept abstract: crypto signing,
public-key recovery and address derivation, content hashing, the
transaction-root computation of the block body, and the wall clock. -/
structure Env where
  sigBytesLen : Nat
  signFn : Nat → List Nat → Option (List Nat)
  recover : List Nat → List Nat → Option (List Nat)
  pubkeyToAddress : List Nat → List Nat
  cryptHashFn : List Nat → List Nat
  txRoot : List Nat → List Nat
  now : Nat
  signerAddress : Nat → List Nat

/-- Mutable state of the `Processor` struct: the node key and address,
the three per-height caches, the two pending-request queues and the two
response caches. -/
structure Processor where
  signer : Nat
  address : List Nat
  proof : List (Nat × Proof)
  pre_hash : List (Nat × List Nat)
  version : List (Nat × Nat)
  get_block_reqs : List Nat
  check_tx_reqs : List (Nat × Nat)
  get_block_resps : List (Nat × BlockTxs)
  check_tx_resps : List ((Nat × Nat) × Nat)
  is_snapshot : Bool
  is_cleared : Bool
deriving DecidableEq

/-- Constructor mirroring `Processor::new`: the address is derived from
the private key by the external `Signer::from`, every cache and queue
starts empty, and both flags start false. -/
def Processor.new (env : Env) (pk : Nat) : Processor :=
  { signer := pk
    address := env.signerAddress pk
    proof := []
    pre_hash := []
    version := []
    get_block_reqs := []
    check_tx_reqs := []
    get_block_resps := []
    check_tx_resps := []
    is_snapshot := false
    is_cleared := false }

/-- Placeholder block validation of the source: always true. -/
def Processor.check_block (_p : Processor) (_block : List Nat) (_height : Nat) : Bool :=
  true

/-- Placeholder transaction validation of the source: always false
(the pairing logic is commented out in the source). -/
def Processor.check_transaction (_p : Processor) (_block : List Nat) (_height _round : Nat) : Bool :=
  false

/-- Translation of `Processor::transmit`: a proposal is re-published
under the consensus proposal topic, a vote under the raw-bytes topic,
and any other engine event is only logged (no publication). -/
def Processor.transmit (_p : Processor) (msg : BftMsg) : List OutMsg :=
  match msg with
  | BftMsg.Proposal encode =>
      [OutMsg.toBus Topic.ConsensusCompactSignedProposal (PubPayload.raw encode)]
  | BftMsg.Vote encode =>
      [OutMsg.toBus Topic.ConsensusRawBytes (PubPayload.raw encode)]
  | _ => []

/-- Translation of `Processor::commit`: a no-op in the source. -/
def Processor.commit (p : Processor) (_c : Commit) : Processor :=
  p

/-- Translation of `to_bft_proof`: repackages the engine proof as the
wire proof tagged `Bft` (bincode serialization of the content is
external and kept structured). -/
def to_bft_proof (proof : Proof) : ProtoProof :=
  { content :=
      { proposal := proof.block_hash
        height := proof.height
        round := proof.round
        commits := proof.precommit_votes }
    field_type := ProofType.Bft }

/-- Translation of `Processor::get_block`: `None` unless the version,
previous-hash and proof caches all have entries for the height;
otherwise the block assembled from the cached entries, the batch body,
the wall clock, the computed transactions root and the node address. -/
def Processor.get_block (p : Processor) (env : Env) (height : Nat) (block_txs : BlockTxs) :
    Option Block :=
  match hmLookup p.version height, hmLookup p.pre_hash height, hmLookup p.proof height with
  | some v, some ph, some pr =>
      some
        { version := v
          body := block_txs.body
          prevhash := ph
          proof := to_bft_proof pr
          timestamp := env.now
          height := height
          transactions_root := env.txRoot block_txs.body
          proposer := p.address }
  | _, _, _ => none

/-- Translation of `Processor::sign`: delegates to the external
`Signature::sign` with the node private key. -/
def Processor.sign (p : Processor) (env : Env) (hash : List Nat) : Option (List Nat) :=
  env.signFn p.signer hash

/-- One step of the counting loop of `extract_status`: the counter of
the address is created at 0 when absent and incremented as a u32. -/
def bumpCount : List (List Nat × Nat) → List Nat → List (List Nat × Nat)
  | [], a => [(a, 1 % U32M)]
  | (b, n) :: rest, a =>
      if a = b then (b, (n + 1) % U32M) :: rest else (b, n) :: bumpCount rest a

/-- Frequency map of the node reports, as built by the `for_each` loop
of `extract_status`. -/
def countNodes (nodes : List (List Nat)) : List (List Nat × Nat) :=
  List.foldl bumpCount [] nodes

/-- Translation of `Processor::extract_status`: seeds the `pre_hash`
and `version` caches with `entry().or_insert()` (first write wins),
frequency-counts the node reports, and returns the derived status whose
authority list gives each distinct address its occurrence count as
proposal weight and vote weight 1. -/
def Processor.extract_status (p : Processor) (status : RichStatus) : Processor × Status :=
  let p2 : Processor :=
    { p with
      pre_hash := hmOrInsert p.pre_hash status.height status.hash
      version := hmOrInsert p.version status.height status.version }
  let authority_list : List Node :=
    (countNodes status.nodes).map fun pr =>
      { address := pr.1, proposal_weight := pr.2, vote_weight := 1 }
  (p2,
    { height := status.height
      interval := some status.interval
      authority_list := authority_list })

/-- Caching step of the `Auth >> BlockTxs` arm:
`get_block_resps.entry(height).or_insert(block_txs)`. -/
def Processor.cacheBlockTxs (p : Processor) (bt : BlockTxs) : Processor :=
  { p with get_block_resps := hmOrInsert p.get_block_resps bt.height bt }

/-- Translation of the `Auth >> BlockTxs` arm of the select loop: the
batch is cached with `entry().or_insert()`; then, when the request
queue is nonempty and a batch for the front request height is cached,
the (possibly `None`) result of `get_block` for that height is sent on
the `p2b_f` channel and the front request is popped. -/
def Processor.handleBlockTxs (env : Env) (p : Processor) (bt : BlockTxs) :
    Processor × List OutMsg :=
  match p.get_block_reqs with
  | [] => (p.cacheBlockTxs bt, [])
  | req_height :: rest =>
      match hmLookup (p.cacheBlockTxs bt).get_block_resps req_height with
      | some btx =>
          ({ p.cacheBlockTxs bt with get_block_reqs := rest },
            [OutMsg.toBridgeF
              (BridgeMsg.GetBlockResp ((p.cacheBlockTxs bt).get_block env req_height btx))])
      | none => (p.cacheBlockTxs bt, [])

/-- Translation of the bus-message dispatch of `Processor::start`. -/
def Processor.handleBus (env : Env) (p : Processor) (m : BusMsg) : Processor × List OutMsg :=
  match m with
  | BusMsg.NetCompactSignedProposal body => (p, [OutMsg.toActuator (BftMsg.Proposal body)])
  | BusMsg.NetRawBytes body => (p, [OutMsg.toActuator (BftMsg.Vote body)])
  | BusMsg.ChainRichStatus s =>
      ((p.extract_status s).1, [OutMsg.toActuator (BftMsg.Status (p.extract_status s).2)])
  | BusMsg.AuthBlockTxs bt => Processor.handleBlockTxs env p bt
  | BusMsg.AuthVerifyBlockResp => (p, [])
  | BusMsg.SnapshotReq => (p, [])
  | BusMsg.other => (p, [])

/-- Translation of the bridge-request dispatch of `Processor::start`:
get-block requests are queued, block checks and sign requests are
answered synchronously on their channels, a check-transaction request is
re-published to the verification subsystem and queued (no response is
sent), transmit and commit delegate to their handlers, and response
variants arriving here are ignored. -/
def Processor.handleBridge (env : Env) (p : Processor) (m : BridgeMsg) :
    Processor × List OutMsg :=
  match m with
  | BridgeMsg.GetBlockReq height =>
      ({ p with get_block_reqs := p.get_block_reqs ++ [height] }, [])
  | BridgeMsg.CheckBlockReq block height =>
      (p, [OutMsg.toBridgeB (BridgeMsg.CheckBlockResp (p.check_block block height))])
  | BridgeMsg.CheckTxReq block height round =>
      ({ p with check_tx_reqs := p.check_tx_reqs ++ [(height, round)] },
        [OutMsg.toBus Topic.ConsensusVerifyBlockReq (PubPayload.verifyBlockReq block height round)])
  | BridgeMsg.SignReq hash =>
      (p, [OutMsg.toBridgeS (BridgeMsg.SignResp (p.sign env hash))])
  | BridgeMsg.Transmit msg => (p, p.transmit msg)
  | BridgeMsg.Commit c => (p.commit c, [])
  | _ => (p, [])

/-- One iteration of the select loop on a ready input. -/
def Processor.step (env : Env) (p : Processor) (e : Event) : Processor × List OutMsg :=
  match e with
  | Event.bus m => Processor.handleBus env p m
  | Event.bridge m => Processor.handleBridge env p m

/-- State after processing a sequence of loop inputs in order. -/
def Processor.run (env : Env) (p : Processor) : List Event → Processor
  | [] => p
  | e :: es => Processor.run env (Processor.step env p e).1 es

/-- Concatenated outputs of processing a sequence of loop inputs. -/
def Processor.runOuts (env : Env) (p : Processor) : List Event → List OutMsg
  | [] => []
  | e :: es => (Processor.step env p e).2 ++ Processor.runOuts env (Processor.step env p e).1 es

/-- Translation of `BftBridge::check_sig`: signatures of the wrong
length are rejected, otherwise the signer public key is recovered from
the hash and its address returned; recovery failure yields no address. -/
def BftBridge.check_sig (env : Env) (signature hash : List Nat) : Option (List Nat) :=
  if signature.length ≠ env.sigBytesLen then none
  else
    match env.recover signature hash with
    | some pubkey => some (env.pubkeyToAddress pubkey)
    | none => none

/-- Translation of `BftBridge::crypt_hash`: the external content hash. -/
def BftBridge.crypt_hash (env : Env) (msg : List Nat) : List Nat :=
  env.cryptHashFn msg

/-- First chain-status event for a height in an input sequence. -/
def firstStatusFor (H : Nat) : List Event → Option RichStatus
  | [] => none
  | Event.bus (BusMsg.ChainRichStatus s) :: es =>
      if s.height = H then some s else firstStatusFor H es
  | _ :: es => firstStatusFor H es

/-- First transaction batch for a height in an input sequence. -/
def firstBlockTxsFor (H : Nat) : List Event → Option BlockTxs
  | [] => none
  | Event.bus (BusMsg.AuthBlockTxs bt) :: es =>
      if bt.height = H then some bt else firstBlockTxsFor H es
  | _ :: es => firstBlockTxsFor H es

/-! Concrete fixtures used by witnesses and counterexamples. -/

/-- Concrete environment: signature length 1, signing and recovery
always fail, address derivation and hashing are simple functions. -/
def env0 : Env :=
  { sigBytesLen := 1
    signFn := fun _ _ => none
    recover := fun _ _ => none
    pubkeyToAddress := fun pk => pk
    cryptHashFn := fun b => b
    txRoot := fun _ => []
    now := 0
    signerAddress := fun _ => [7] }

/-- Variant environment whose recovery succeeds, returning the
signature and hash bytes concatenated as the public key. -/
def env1 : Env :=
  { env0 with recover := fun s h => some (s ++ h) }

/-- Fresh processor built from `env0` and private key 0. -/
def proc0 : Processor :=
  Processor.new env0 0

/-- Transaction batch for height 5 with body `[1]`. -/
def bt5a : BlockTxs :=
  { height := 5, body := [1] }

/-- Different transaction batch for the same height 5. -/
def bt5b : BlockTxs :=
  { height := 5, body := [2] }

/-- Transaction batch for height 7. -/
def bt7 : BlockTxs :=
  { height := 7, body := [3] }

/-- Concrete engine proof for height 3. -/
def proofW : Proof :=
  { height := 3, round := 0, block_hash := [4], precommit_votes := [([5], [6])] }

/-- Processor whose three height-3 caches are all populated. -/
def procFull : Processor :=
  { proc0 with version := [(3, 1)], pre_hash := [(3, [9])], proof := [(3, proofW)] }

/-- Block that `procFull.get_block` assembles for height 3 and `bt5a`. -/
def blkW : Block :=
  { version := 1
    body := [1]
    prevhash := [9]
    proof := to_bft_proof proofW
    timestamp := 0
    height := 3
    transactions_root := []
    proposer := [7] }

/-- Event sequence: batch for height 5, get-block request for height 5,
then a batch for height 7. -/
def esC3 : List Event :=
  [Event.bus (BusMsg.AuthBlockTxs bt5a), Event.bridge (BridgeMsg.GetBlockReq 5),
    Event.bus (BusMsg.AuthBlockTxs bt7)]

/-! Lemmas about the association-list operations. -/

/-- An existing entry survives a conditional insert under any key. -/
theorem hmLookup_orInsert_of_some {κ α : Type} [DecidableEq κ] (m : List (κ × α))
    (k k2 : κ) (v w : α) (h : hmLookup m k2 = some w) :
    hmLookup (hmOrInsert m k v) k2 = some w := by
  unfold hmOrInsert
  split
  · exact h
  · next hnone =>
    by_cases hk : k2 = k
    · subst hk
      simp [h] at hnone
    · simpa [hmLookup, hk] using h

/-- A conditional insert leaves lookups under other keys unchanged. -/
theorem hmLookup_orInsert_of_ne {κ α : Type} [DecidableEq κ] (m : List (κ × α))
    (k k2 : κ) (v : α) (h : k2 ≠ k) :
    hmLookup (hmOrInsert m k v) k2 = hmLookup m k2 := by
  unfold hmOrInsert
  split
  · rfl
  · simp [hmLookup, h]

/-- A conditional insert on an absent key stores the value. -/
theorem hmLookup_orInsert_of_none {κ α : Type} [DecidableEq κ] (m : List (κ × α))
    (k : κ) (v : α) (h : hmLookup m k = none) :
    hmLookup (hmOrInsert m k v) k = some v := by
  unfold hmOrInsert
  simp [h, hmLookup]

/-! Field-preservation lemmas about a single loop step. -/

/-- No handler writes the proof cache: commit is a no-op and nothing
else touches it. -/
theorem step_proof_eq (env : Env) (p : Processor) (e : Event) :
    ((Processor.step env p e).1).proof = p.proof := by
  cases e with
  | bus m =>
    cases m with
    | AuthBlockTxs bt =>
      simp only [Processor.step, Processor.handleBus, Processor.handleBlockTxs]
      split
      · rfl
      · split <;> rfl
    | _ => rfl
  | bridge m => cases m <;> rfl

/-- Only a chain-status event touches the pre_hash and version caches. -/
theorem step_pre_hash_version_eq (env : Env) (p : Processor) (e : Event)
    (hne : ∀ s, e ≠ Event.bus (BusMsg.ChainRichStatus s)) :
    ((Processor.step env p e).1).pre_hash = p.pre_hash ∧
    ((Processor.step env p e).1).version = p.version := by
  cases e with
  | bus m =>
    cases m with
    | ChainRichStatus s => exact absurd rfl (hne s)
    | AuthBlockTxs bt =>
      simp only [Processor.step, Processor.handleBus, Processor.handleBlockTxs]
      split
      · exact ⟨rfl, rfl⟩
      · split <;> exact ⟨rfl, rfl⟩
    | _ => exact ⟨rfl, rfl⟩
  | bridge m => cases m <;> exact ⟨rfl, rfl⟩

/-- A chain-status event updates the pre_hash and version caches by
conditional insert at the status height. -/
theorem step_status_caches (env : Env) (p : Processor) (s : RichStatus) :
    ((Processor.step env p (Event.bus (BusMsg.ChainRichStatus s))).1).pre_hash =
      hmOrInsert p.pre_hash s.height s.hash ∧
    ((Processor.step env p (Event.bus (BusMsg.ChainRichStatus s))).1).version =
      hmOrInsert p.version s.height s.version :=
  ⟨rfl, rfl⟩

/-- Only a transaction-batch event touches the batch cache. -/
theorem step_resps_eq (env : Env) (p : Processor) (e : Event)
    (hne : ∀ bt, e ≠ Event.bus (BusMsg.AuthBlockTxs bt)) :
    ((Processor.step env p e).1).get_block_resps = p.get_block_resps := by
  cases e with
  | bus m =>
    cases m with
    | AuthBlockTxs bt => exact absurd rfl (hne bt)
    | _ => rfl
  | bridge m => cases m <;> rfl

/-- A transaction-batch event updates the batch cache by conditional
insert at the batch height. -/
theorem step_blocktxs_resps (env : Env) (p : Processor) (bt : BlockTxs) :
    ((Processor.step env p (Event.bus (BusMsg.AuthBlockTxs bt))).1).get_block_resps =
      hmOrInsert p.get_block_resps bt.height bt := by
  simp only [Processor.step, Processor.handleBus, Processor.handleBlockTxs]
  split
  · rfl
  · split <;> rfl

/-! Run-level cache lemmas. -/

/-- Cached pre_hash, version and batch entries are never overwritten or
removed by any later event. -/
theorem run_cache_mono (env : Env) (H : Nat) (es : List Event) : ∀ (p : Processor),
    (∀ v, hmLookup p.pre_hash H = some v →
      hmLookup (Processor.run env p es).pre_hash H = some v) ∧
    (∀ v, hmLookup p.version H = some v →
      hmLookup (Processor.run env p es).version H = some v) ∧
    (∀ bt, hmLookup p.get_block_resps H = some bt →
      hmLookup (Processor.run env p es).get_block_resps H = some bt) := by
  induction es with
  | nil => exact fun p => ⟨fun _ h => h, fun _ h => h, fun _ h => h⟩
  | cons e rest ih =>
    intro p
    have hstep :
        (∀ v, hmLookup p.pre_hash H = some v →
          hmLookup ((Processor.step env p e).1).pre_hash H = some v) ∧
        (∀ v, hmLookup p.version H = some v →
          hmLookup ((Processor.step env p e).1).version H = some v) ∧
        (∀ bt, hmLookup p.get_block_resps H = some bt →
          hmLookup ((Processor.step env p e).1).get_block_resps H = some bt) := by
      cases e with
      | bus m =>
        cases m with
        | ChainRichStatus s =>
          refine ⟨fun v h => ?_, fun v h => ?_, fun bt h => ?_⟩
          · exact (step_status_caches env p s).1 ▸ hmLookup_orInsert_of_some _ _ _ _ _ h
          · exact (step_status_caches env p s).2 ▸ hmLookup_orInsert_of_some _ _ _ _ _ h
          · exact (step_resps_eq env p (Event.bus (BusMsg.ChainRichStatus s))
              (fun bt h => by simp at h)) ▸ h
        | AuthBlockTxs bt =>
          have hpv := step_pre_hash_version_eq env p (Event.bus (BusMsg.AuthBlockTxs bt))
            (fun s h => by simp at h)
          refine ⟨fun v h => hpv.1 ▸ h, fun v h => hpv.2 ▸ h, fun bt2 h => ?_⟩
          exact (step_blocktxs_resps env p bt) ▸ hmLookup_orInsert_of_some _ _ _ _ _ h
        | NetCompactSignedProposal body => exact ⟨fun _ h => h, fun _ h => h, fun _ h => h⟩
        | NetRawBytes body => exact ⟨fun _ h => h, fun _ h => h, fun _ h => h⟩
        | AuthVerifyBlockResp => exact ⟨fun _ h => h, fun _ h => h, fun _ h => h⟩
        | SnapshotReq => exact ⟨fun _ h => h, fun _ h => h, fun _ h => h⟩
        | other => exact ⟨fun _ h => h, fun _ h => h, fun _ h => h⟩
      | bridge m =>
        have hpv := step_pre_hash_version_eq env p (Event.bridge m) (fun s h => by simp at h)
        have hr := step_resps_eq env p (Event.bridge m) (fun bt h => by simp at h)
        exact ⟨fun v h => hpv.1 ▸ h, fun v h => hpv.2 ▸ h, fun bt h => hr ▸ h⟩
    exact ⟨fun v h => ((ih _).1) v (hstep.1 v h),
      fun v h => ((ih _).2.1) v (hstep.2.1 v h),
      fun bt h => ((ih _).2.2) bt (hstep.2.2 bt h)⟩

/-- The proof cache content is invariant across a whole run. -/
theorem run_proof_eq (env : Env) (es : List Event) : ∀ (p : Processor),
    (Processor.run env p es).proof = p.proof := by
  induction es with
  | nil => exact fun p => rfl
  | cons e rest ih =>
    intro p
    exact (ih _).trans (step_proof_eq env p e)

/-- C8: the processor-side block validation is the always-true
placeholder, and two sequential CheckBlockReq requests are each
answered synchronously with CheckBlockResp true. -/
theorem check_block_always_true (env : Env) (p : Processor) (b1 b2 : List Nat) (h1 h2 : Nat) :
    p.check_block b1 h1 = true ∧
    Processor.runOuts env p
        [Event.bridge (BridgeMsg.CheckBlockReq b1 h1),
          Event.bridge (BridgeMsg.CheckBlockReq b2 h2)] =
      [OutMsg.toBridgeB (BridgeMsg.CheckBlockResp true),
        OutMsg.toBridgeB (BridgeMsg.CheckBlockResp true)] :=
  ⟨rfl, rfl⟩

/-- C9: a Transmit request re-publishes a Proposal under the consensus
proposal topic and a Vote under the raw-bytes topic, leaving the state
unchanged; any other engine event kind produces no publication and
leaves the state unchanged. -/
theorem transmit_topics (env : Env) (p : Processor) (e : List Nat) (m : BftMsg)
    (hp : ∀ b, m ≠ BftMsg.Proposal b) (hv : ∀ b, m ≠ BftMsg.Vote b) :
    Processor.handleBridge env p (BridgeMsg.Transmit (BftMsg.Proposal e)) =
      (p, [OutMsg.toBus Topic.ConsensusCompactSignedProposal (PubPayload.raw e)]) ∧
    Processor.handleBridge env p (BridgeMsg.Transmit (BftMsg.Vote e)) =
      (p, [OutMsg.toBus Topic.ConsensusRawBytes (PubPayload.raw e)]) ∧
    Processor.handleBridge env p (BridgeMsg.Transmit m) = (p, []) := by
  refine ⟨rfl, rfl, ?_⟩
  cases m with
  | Proposal b => exact absurd rfl (hp b)
  | Vote b => exact absurd rfl (hv b)
  | Status s => rfl
  | Pause => rfl
  | Clear => rfl

/-- Witness for C9: a Pause engine event is dropped with no publication
and no state change. -/
theorem transmit_topics_witness :
    Processor.handleBridge env0 proc0 (BridgeMsg.Transmit BftMsg.Pause) = (proc0, []) :=
  (transmit_topics env0 proc0 [] BftMsg.Pause (fun _ h => BftMsg.noConfusion h)
    (fun _ h => BftMsg.noConfusion h)).2.2

/-- C7: check_sig rejects any signature whose length differs from the
fixed signature size, and otherwise returns the address derived from
the recovered public key, or none when recovery fails. -/
theorem check_sig_length_guard (env : Env) (sig hash : List Nat) :
    (sig.length ≠ env.sigBytesLen → BftBridge.check_sig env sig hash = none) ∧
    (sig.length = env.sigBytesLen →
      BftBridge.check_sig env sig hash = (env.recover sig hash).map env.pubkeyToAddress) := by
  constructor
  · intro h
    simp [BftBridge.check_sig, h]
  · intro h
    simp only [BftBridge.check_sig, h, ne_eq, not_true_eq_false, if_false]
    cases env.recover sig hash <;> simp

/-- Witness for C7: a length-0 signature is rejected under `env0`
(signature size 1), and a length-1 signature under `env1` yields the
address derived from the recovered key. -/
theorem check_sig_length_guard_witness :
    BftBridge.check_sig env0 [] [] = none ∧
    BftBridge.check_sig env1 [9] [] = some [9] :=
  ⟨(check_sig_length_guard env0 [] []).1 (by decide),
    ((check_sig_length_guard env1 [9] []).2 rfl).trans rfl⟩

/-- C2 counterexample: after two batches for height 5 arrive in
sequence, the cache holds the first batch, not the latest one. -/
theorem block_txs_cache_latest_counterexample :
    hmLookup
        (Processor.run env0 proc0
          [Event.bus (BusMsg.AuthBlockTxs bt5a),
            Event.bus (BusMsg.AuthBlockTxs bt5b)]).get_block_resps 5 = some bt5a ∧
    hmLookup
        (Processor.run env0 proc0
          [Event.bus (BusMsg.AuthBlockTxs bt5a),
            Event.bus (BusMsg.AuthBlockTxs bt5b)]).get_block_resps 5 ≠ some bt5b := by
  decide

/-- C3 counterexample: a batch for height 5 is cached, a get-block
request for height 5 is queued, and then a batch for height 7 arrives;
the processor attempts assembly for front height 5 (not equal to the
arriving height 7), sends a GetBlockResp carrying none (assembly fails,
the proof cache being empty), and still pops the request, leaving the
queue empty. -/
theorem block_txs_front_request_counterexample :
    (Processor.run env0 proc0 esC3).get_block_reqs = [] ∧
    Processor.runOuts env0 proc0 esC3 = [OutMsg.toBridgeF (BridgeMsg.GetBlockResp none)] := by
  decide

/-- C6 counterexample: the only output of handling a CheckTxReq is the
re-published verification request on the bus; no CheckTxResp is sent on
any bridge channel, so the adapter call waiting on the tx-check
response channel is never answered. -/
theorem check_tx_no_response_counterexample :
    Processor.runOuts env0 proc0 [Event.bridge (BridgeMsg.CheckTxReq [] 0 0)] =
      [OutMsg.toBus Topic.ConsensusVerifyBlockReq (PubPayload.verifyBlockReq [] 0 0)] := by
  decide

/-- C4: get_block yields a block exactly when the version, previous
hash and proof caches all hold entries for the height, and the
assembled block carries that height, the cached previous hash, the
cached version, the batch body and the node address as proposer. -/
theorem get_block_spec (env : Env) (p : Processor) (h : Nat) (bt : BlockTxs) :
    ((p.get_block env h bt).isSome ↔
      (hmLookup p.version h).isSome ∧ (hmLookup p.pre_hash h).isSome ∧
        (hmLookup p.proof h).isSome) ∧
    (∀ blk, p.get_block env h bt = some blk →
      blk.height = h ∧
      some blk.prevhash = hmLookup p.pre_hash h ∧
      some blk.version = hmLookup p.version h ∧
      blk.body = bt.body ∧
      blk.proposer = p.address) := by
  unfold Processor.get_block
  cases hv : hmLookup p.version h <;> cases hph : hmLookup p.pre_hash h <;>
    cases hpr : hmLookup p.proof h <;>
    simp_all

/-! Counting lemmas for the authority derivation of extract_status. -/

/-- Lookup after one counting step: the bumped address maps to its old
count (default 0) plus one, as a u32; other addresses are unchanged. -/
theorem hmLookup_bumpCount (m : List (List Nat × Nat)) (a b : List Nat) :
    hmLookup (bumpCount m a) b =
      if b = a then some (((hmLookup m a).getD 0 + 1) % U32M) else hmLookup m b := by
  induction m with
  | nil => by_cases hb : b = a <;> simp [bumpCount, hmLookup, hb]
  | cons pr rest ih =>
    obtain ⟨c, n⟩ := pr
    by_cases hac : a = c
    · subst hac
      by_cases hb : b = a <;> simp [bumpCount, hmLookup, hb]
    · by_cases hb : b = c
      · subst hb
        have hba : ¬b = a := fun hEq => hac hEq.symm
        simp [bumpCount, hmLookup, hac, hba]
      · simp [bumpCount, hmLookup, hac, hb, ih]

/-- Lookup after the whole counting fold: every address maps to its old
count plus its number of occurrences, provided that total stays below
the u32 modulus. -/
theorem hmLookup_foldl_bumpCount (l : List (List Nat)) :
    ∀ (m : List (List Nat × Nat)) (b : List Nat),
    (hmLookup m b).getD 0 + l.count b < U32M →
    hmLookup (List.foldl bumpCount m l) b =
      if l.count b = 0 then hmLookup m b
      else some ((hmLookup m b).getD 0 + l.count b) := by
  induction l with
  | nil =>
    intro m b _
    simp
  | cons a l ih =>
    intro m b hb
    simp only [List.foldl_cons]
    by_cases hba : b = a
    · subst hba
      have hc : (b :: l).count b = l.count b + 1 := by simp [List.count_cons]
      rw [hc] at hb
      have hlt : (hmLookup m b).getD 0 + 1 < U32M := by omega
      have hmb : hmLookup (bumpCount m b) b = some ((hmLookup m b).getD 0 + 1) := by
        rw [hmLookup_bumpCount]
        simp [Nat.mod_eq_of_lt hlt]
      have hb2 : (hmLookup (bumpCount m b) b).getD 0 + l.count b < U32M := by
        rw [hmb]
        simp only [Option.getD_some]
        omega
      rw [ih _ b hb2, hc, hmb]
      by_cases h0 : l.count b = 0
      · simp [h0]
      · simp only [h0, if_false, Option.getD_some]
        have h1 : ¬(l.count b + 1 = 0) := by omega
        simp only [h1, if_false]
        congr 1
        omega
    · have hc : (a :: l).count b = l.count b := by simp [List.count_cons, hba]
      have hlb : hmLookup (bumpCount m a) b = hmLookup m b := by
        rw [hmLookup_bumpCount]
        simp [hba]
      rw [hc, ih _ b (by rw [hlb, ← hc]; exact hb), hlb]

/-- Lookup in the frequency map: an address maps to its occurrence
count, absent addresses map to nothing, while the count stays below the
u32 modulus. -/
theorem hmLookup_countNodes (l : List (List Nat)) (b : List Nat) (hb : l.count b < U32M) :
    hmLookup (countNodes l) b = if l.count b = 0 then none else some (l.count b) := by
  have h := hmLookup_foldl_bumpCount l [] b (by simpa [hmLookup] using hb)
  simpa [countNodes, hmLookup] using h

/-- A lookup misses exactly when the key is not among the map keys. -/
theorem hmLookup_eq_none_iff {κ α : Type} [DecidableEq κ] (m : List (κ × α)) (b : κ) :
    hmLookup m b = none ↔ b ∉ m.map Prod.fst := by
  induction m with
  | nil => simp [hmLookup]
  | cons pr rest ih =>
    obtain ⟨c, n⟩ := pr
    by_cases hb : b = c <;> simp [hmLookup, hb, ih]

/-- Keys after one counting step: unchanged when the address is already
a key, otherwise the address is appended. -/
theorem keys_bumpCount (m : List (List Nat × Nat)) (a : List Nat) :
    (bumpCount m a).map Prod.fst =
      if a ∈ m.map Prod.fst then m.map Prod.fst else m.map Prod.fst ++ [a] := by
  induction m with
  | nil => simp [bumpCount]
  | cons pr rest ih =>
    obtain ⟨c, n⟩ := pr
    by_cases hac : a = c
    · simp [bumpCount, hac]
    · by_cases hm : a ∈ rest.map Prod.fst <;> simp [bumpCount, hac, ih, hm]

/-- The counting fold keeps the key list duplicate-free. -/
theorem nodup_keys_foldl_bumpCount (l : List (List Nat)) :
    ∀ m : List (List Nat × Nat), (m.map Prod.fst).Nodup →
    ((List.foldl bumpCount m l).map Prod.fst).Nodup := by
  induction l with
  | nil =>
    intro m hm
    simpa using hm
  | cons a l ih =>
    intro m hm
    simp only [List.foldl_cons]
    apply ih
    rw [keys_bumpCount]
    split
    · exact hm
    · next hmem => simp [List.nodup_append, hm, hmem]

/-- With duplicate-free keys, membership of a pair determines lookup. -/
theorem mem_hmLookup_of_nodup {κ α : Type} [DecidableEq κ] (m : List (κ × α)) :
    (m.map Prod.fst).Nodup → ∀ (a : κ) (n : α), (a, n) ∈ m → hmLookup m a = some n := by
  induction m with
  | nil =>
    intro _ a n hmem
    cases hmem
  | cons pr rest ih =>
    intro hnd a n hmem
    obtain ⟨c, k⟩ := pr
    simp only [List.map_cons, List.nodup_cons] at hnd
    rcases List.mem_cons.mp hmem with heq | hmem2
    · obtain ⟨rfl, rfl⟩ := Prod.mk.injEq .. ▸ heq
      simp [hmLookup]
    · have hac : a ≠ c := by
        intro hEq
        subst hEq
        exact hnd.1 (List.mem_map.mpr ⟨(a, n), hmem2, rfl⟩)
      simpa [hmLookup, hac] using ih hnd.2 a n hmem2

/-- C5: the derived authority list has duplicate-free addresses, its
addresses are exactly those occurring in the report list, each entry
carries its address occurrence count as proposal weight and vote
weight 1, and the proposal weights sum to the report list length
(assuming the report list is shorter than the u32 modulus, so the u32
counters do not wrap). -/
theorem extract_status_authority_weights (p : Processor) (s : RichStatus)
    (hlen : s.nodes.length < U32M) :
    (((p.extract_status s).2.authority_list.map Node.address).Nodup) ∧
    (∀ a, a ∈ (p.extract_status s).2.authority_list.map Node.address ↔ a ∈ s.nodes) ∧
    (∀ nd ∈ (p.extract_status s).2.authority_list,
      nd.proposal_weight = s.nodes.count nd.address ∧ nd.vote_weight = 1) ∧
    ((p.extract_status s).2.authority_list.map Node.proposal_weight).sum =
      s.nodes.length := by
  have hal : (p.extract_status s).2.authority_list =
      (countNodes s.nodes).map fun pr =>
        { address := pr.1, proposal_weight := pr.2, vote_weight := 1 } := rfl
  have hkeys : (p.extract_status s).2.authority_list.map Node.address =
      (countNodes s.nodes).map Prod.fst := by
    rw [hal, List.map_map]
    rfl
  have hnd : ((countNodes s.nodes).map Prod.fst).Nodup :=
    nodup_keys_foldl_bumpCount s.nodes [] (by simp)
  have hcount : ∀ b : List Nat, s.nodes.count b < U32M :=
    fun b => Nat.lt_of_le_of_lt (List.count_le_length b s.nodes) hlen
  have hmem : ∀ a : List Nat, a ∈ (countNodes s.nodes).map Prod.fst ↔ a ∈ s.nodes := by
    intro a
    have h1 := hmLookup_countNodes s.nodes a (hcount a)
    constructor
    · intro hin
      by_contra hout
      have h0 : s.nodes.count a = 0 := List.count_eq_zero.mpr hout
      rw [h0] at h1
      exact (hmLookup_eq_none_iff (countNodes s.nodes) a).mp (by simpa using h1) hin
    · intro hin
      have h0 : s.nodes.count a ≠ 0 := by
        have := List.count_pos_iff.mpr hin
        omega
      by_contra hout
      have := (hmLookup_eq_none_iff (countNodes s.nodes) a).mpr hout
      rw [this] at h1
      simp [h0] at h1
  have hpair : ∀ pr : List Nat × Nat, pr ∈ countNodes s.nodes →
      pr.2 = s.nodes.count pr.1 := by
    intro pr hpr
    have hl := mem_hmLookup_of_nodup (countNodes s.nodes) hnd pr.1 pr.2 (by simpa using hpr)
    rw [hmLookup_countNodes s.nodes pr.1 (hcount pr.1)] at hl
    by_cases h0 : s.nodes.count pr.1 = 0
    · rw [h0] at hl
      simp at hl
    · rw [if_neg h0] at hl
      exact (Option.some.injEq .. ▸ hl).symm
  refine ⟨hkeys ▸ hnd, fun a => hkeys ▸ hmem a, ?_, ?_⟩
  · intro nd hnd2
    rw [hal] at hnd2
    obtain ⟨pr, hpr, rfl⟩ := List.mem_map.mp hnd2
    exact ⟨hpair pr hpr, rfl⟩
  · have hw : (p.extract_status s).2.authority_list.map Node.proposal_weight =
        (countNodes s.nodes).map Prod.snd := by
      rw [hal, List.map_map]
      rfl
    have hsnd : (countNodes s.nodes).map Prod.snd =
        (countNodes s.nodes).map (fun pr => s.nodes.count pr.1) :=
      List.map_congr_left fun pr hpr => hpair pr hpr
    have hcomp : (countNodes s.nodes).map (fun pr => s.nodes.count pr.1) =
        ((countNodes s.nodes).map Prod.fst).map (fun a => s.nodes.count a) := by
      rw [List.map_map]
      rfl
    have hperm : List.Perm ((countNodes s.nodes).map Prod.fst) s.nodes.dedup :=
      (List.perm_ext_iff_of_nodup hnd (List.nodup_dedup s.nodes)).mpr
        (fun a => (hmem a).trans (List.mem_dedup.symm))
    have hinst : (List.instBEq : BEq (List Nat)) = instBEqOfDecidableEq :=
      lawful_beq_subsingleton _ _
    rw [hw, hsnd, hcomp, (hperm.map fun a => s.nodes.count a).sum_eq, hinst]
    exact List.sum_map_count_dedup_eq_length s.nodes

/-- Status for height 10 whose node reports are `[[1], [1], [2]]`. -/
def rs3 : RichStatus :=
  { height := 10, hash := [0], version := 0, interval := 3, nodes := [[1], [1], [2]] }

/-- Witness for C5: for the report list `[[1], [1], [2]]` the derived
weights are 2 for address `[1]` and 1 for address `[2]`, summing to 3. -/
theorem extract_status_authority_weights_witness :
    ((((Processor.new env0 0).extract_status rs3).2.authority_list.map
      Node.proposal_weight).sum = 3) ∧
    (∀ nd ∈ ((Processor.new env0 0).extract_status rs3).2.authority_list,
      nd.proposal_weight = rs3.nodes.count nd.address ∧ nd.vote_weight = 1) :=
  ⟨(extract_status_authority_weights (Processor.new env0 0) rs3 (by decide)).2.2.2,
    (extract_status_authority_weights (Processor.new env0 0) rs3 (by decide)).2.2.1⟩

/-- Skipping lemma: events other than a chain status do not change
which status is first for a height. -/
theorem firstStatusFor_cons_other (H : Nat) (e : Event) (es : List Event)
    (hne : ∀ s2, e ≠ Event.bus (BusMsg.ChainRichStatus s2)) :
    firstStatusFor H (e :: es) = firstStatusFor H es := by
  cases e with
  | bus m =>
    cases m <;> try rfl
    next s => exact absurd rfl (hne s)
  | bridge m => rfl

/-- Skipping lemma: events other than a transaction batch do not change
which batch is first for a height. -/
theorem firstBlockTxsFor_cons_other (H : Nat) (e : Event) (es : List Event)
    (hne : ∀ bt, e ≠ Event.bus (BusMsg.AuthBlockTxs bt)) :
    firstBlockTxsFor H (e :: es) = firstBlockTxsFor H es := by
  cases e with
  | bus m =>
    cases m <;> try rfl
    next bt => exact absurd rfl (hne bt)
  | bridge m => rfl

/-- Auxiliary induction for C1: starting from empty height-H cache
entries, the run ends with the values of the first status event for H. -/
theorem run_first_status_aux (env : Env) (H : Nat) (es : List Event) :
    ∀ (p : Processor) (s : RichStatus),
    hmLookup p.pre_hash H = none → hmLookup p.version H = none →
    firstStatusFor H es = some s →
    hmLookup (Processor.run env p es).pre_hash H = some s.hash ∧
    hmLookup (Processor.run env p es).version H = some s.version := by
  induction es with
  | nil =>
    intro p s h1 h2 hf
    simp [firstStatusFor] at hf
  | cons e rest ih =>
    intro p s h1 h2 hf
    simp only [Processor.run]
    by_cases hcs : ∃ s2, e = Event.bus (BusMsg.ChainRichStatus s2)
    · obtain ⟨s2, rfl⟩ := hcs
      by_cases hH : s2.height = H
      · have hs2 : s2 = s := by simpa [firstStatusFor, hH] using hf
        subst hs2
        have hmono := run_cache_mono env H rest
          ((Processor.step env p (Event.bus (BusMsg.ChainRichStatus s2))).1)
        refine ⟨hmono.1 _ ?_, hmono.2.1 _ ?_⟩
        · rw [(step_status_caches env p s2).1, hH]
          exact hmLookup_orInsert_of_none _ _ _ h1
        · rw [(step_status_caches env p s2).2, hH]
          exact hmLookup_orInsert_of_none _ _ _ h2
      · have hf2 : firstStatusFor H rest = some s := by
          simpa [firstStatusFor, hH] using hf
        apply ih _ s _ _ hf2
        · rw [(step_status_caches env p s2).1,
            hmLookup_orInsert_of_ne _ _ _ _ (fun hEq => hH hEq.symm)]
          exact h1
        · rw [(step_status_caches env p s2).2,
            hmLookup_orInsert_of_ne _ _ _ _ (fun hEq => hH hEq.symm)]
          exact h2
    · push_neg at hcs
      have hpv := step_pre_hash_version_eq env p e hcs
      have hf2 : firstStatusFor H rest = some s := by
        rw [← firstStatusFor_cons_other H e rest hcs]
        exact hf
      exact ih _ s (hpv.1 ▸ h1) (hpv.2 ▸ h2) hf2

/-- C1: from a fresh processor, after any event sequence containing
chain-status events for height H, the cached pre_hash and version for H
are those of the first status event seen for H; later duplicate or
conflicting status events never overwrite them. -/
theorem extract_status_first_write_wins (env : Env) (pk H : Nat) (es : List Event)
    (s : RichStatus) (hfirst : firstStatusFor H es = some s) :
    hmLookup (Processor.run env (Processor.new env pk) es).pre_hash H = some s.hash ∧
    hmLookup (Processor.run env (Processor.new env pk) es).version H = some s.version :=
  run_first_status_aux env H es (Processor.new env pk) s rfl rfl hfirst

/-- Status for height 2 with hash `[1]` and version 0. -/
def rs2a : RichStatus :=
  { height := 2, hash := [1], version := 0, interval := 3, nodes := [[1]] }

/-- Conflicting status for the same height 2. -/
def rs2b : RichStatus :=
  { height := 2, hash := [2], version := 9, interval := 3, nodes := [] }

/-- Witness for C1: after two conflicting status events for height 2,
the caches hold the hash and version of the first one. -/
theorem extract_status_first_write_wins_witness :
    hmLookup (Processor.run env0 (Processor.new env0 0)
        [Event.bus (BusMsg.ChainRichStatus rs2a),
          Event.bus (BusMsg.ChainRichStatus rs2b)]).pre_hash 2 = some rs2a.hash ∧
    hmLookup (Processor.run env0 (Processor.new env0 0)
        [Event.bus (BusMsg.ChainRichStatus rs2a),
          Event.bus (BusMsg.ChainRichStatus rs2b)]).version 2 = some rs2a.version :=
  extract_status_first_write_wins env0 0 2 _ rs2a (by decide)

/-- Auxiliary induction for the amended C2: starting from an empty
height-H batch-cache entry, the run ends with the first batch for H. -/
theorem run_first_blocktxs_aux (env : Env) (H : Nat) (es : List Event) :
    ∀ (p : Processor) (bt : BlockTxs),
    hmLookup p.get_block_resps H = none →
    firstBlockTxsFor H es = some bt →
    hmLookup (Processor.run env p es).get_block_resps H = some bt := by
  induction es with
  | nil =>
    intro p bt h1 hf
    simp [firstBlockTxsFor] at hf
  | cons e rest ih =>
    intro p bt h1 hf
    simp only [Processor.run]
    by_cases hcs : ∃ bt2, e = Event.bus (BusMsg.AuthBlockTxs bt2)
    · obtain ⟨bt2, rfl⟩ := hcs
      by_cases hH : bt2.height = H
      · have hbt2 : bt2 = bt := by simpa [firstBlockTxsFor, hH] using hf
        subst hbt2
        apply (run_cache_mono env H rest _).2.2
        rw [step_blocktxs_resps env p bt2, hH]
        exact hmLookup_orInsert_of_none _ _ _ h1
      · have hf2 : firstBlockTxsFor H rest = some bt := by
          simpa [firstBlockTxsFor, hH] using hf
        apply ih _ bt _ hf2
        rw [step_blocktxs_resps env p bt2,
          hmLookup_orInsert_of_ne _ _ _ _ (fun hEq => hH hEq.symm)]
        exact h1
    · push_neg at hcs
      have hr := step_resps_eq env p e hcs
      have hf2 : firstBlockTxsFor H rest = some bt := by
        rw [← firstBlockTxsFor_cons_other H e rest hcs]
        exact hf
      exact ih _ bt (hr ▸ h1) hf2

/-- Amended C2: the per-height transaction-batch cache is first-write
wins, exactly like the pre_hash and version caches: after any event
sequence, the cached batch for H is the first batch received for H. -/
theorem block_txs_cache_first_write_wins (env : Env) (pk H : Nat) (es : List Event)
    (bt : BlockTxs) (hfirst : firstBlockTxsFor H es = some bt) :
    hmLookup (Processor.run env (Processor.new env pk) es).get_block_resps H = some bt :=
  run_first_blocktxs_aux env H es (Processor.new env pk) bt rfl hfirst

/-- Witness for the amended C2: after two batches for height 5, the
cache holds the first one. -/
theorem block_txs_cache_first_write_wins_witness :
    hmLookup (Processor.run env0 (Processor.new env0 0)
        [Event.bus (BusMsg.AuthBlockTxs bt5a),
          Event.bus (BusMsg.AuthBlockTxs bt5b)]).get_block_resps 5 = some bt5a :=
  block_txs_cache_first_write_wins env0 0 5 _ bt5a (by decide)

/-- Projection lemma: the caching step only rewrites the batch cache. -/
theorem cacheBlockTxs_resps (p : Processor) (bt : BlockTxs) :
    (p.cacheBlockTxs bt).get_block_resps = hmOrInsert p.get_block_resps bt.height bt :=
  rfl

/-- Amended C3: when a transaction batch arrives and the request queue
front is some height whose batch is cached after the insert (whether by
this arrival or an earlier one, regardless of the arriving height), the
processor sends the possibly-none result of get_block for the front
height and pops the front request unconditionally. -/
theorem block_txs_front_request_pop (env : Env) (p : Processor) (bt : BlockTxs)
    (h : Nat) (rest : List Nat) (btx : BlockTxs)
    (hq : p.get_block_reqs = h :: rest)
    (hr : hmLookup (hmOrInsert p.get_block_resps bt.height bt) h = some btx) :
    (Processor.handleBus env p (BusMsg.AuthBlockTxs bt)).1.get_block_reqs = rest ∧
    (Processor.handleBus env p (BusMsg.AuthBlockTxs bt)).2 =
      [OutMsg.toBridgeF (BridgeMsg.GetBlockResp (p.get_block env h btx))] := by
  simp only [Processor.handleBus, Processor.handleBlockTxs, hq, cacheBlockTxs_resps, hr]
  exact ⟨trivial, rfl⟩

/-- Processor state with a batch for height 5 cached and a get-block
request for height 5 queued. -/
def pW : Processor :=
  Processor.run env0 proc0
    [Event.bus (BusMsg.AuthBlockTxs bt5a), Event.bridge (BridgeMsg.GetBlockReq 5)]

/-- Witness for the amended C3: a batch for height 7 arriving while the
front request is height 5 answers and pops that request using the
earlier height-5 batch. -/
theorem block_txs_front_request_pop_witness :
    (Processor.handleBus env0 pW (BusMsg.AuthBlockTxs bt7)).1.get_block_reqs = [] ∧
    (Processor.handleBus env0 pW (BusMsg.AuthBlockTxs bt7)).2 =
      [OutMsg.toBridgeF (BridgeMsg.GetBlockResp (pW.get_block env0 5 bt5a))] :=
  block_txs_front_request_pop env0 pW bt7 5 [] bt5a (by decide) (by decide)

/-- The transmit handler never writes the tx-check response channel. -/
theorem transmit_no_toBridgeT (p : Processor) (m2 : BftMsg) (msg : BridgeMsg) :
    OutMsg.toBridgeT msg ∉ p.transmit m2 := by
  cases m2 <;> simp [Processor.transmit]

/-- No step of the loop ever sends on the tx-check response channel
`p2b_t`: the source constructs no message on it. -/
theorem step_no_toBridgeT (env : Env) (p : Processor) (e : Event) (msg : BridgeMsg) :
    OutMsg.toBridgeT msg ∉ (Processor.step env p e).2 := by
  cases e with
  | bus m =>
    cases m with
    | AuthBlockTxs bt =>
      simp only [Processor.step, Processor.handleBus, Processor.handleBlockTxs]
      split
      · simp
      · split <;> simp
    | NetCompactSignedProposal body => simp [Processor.step, Processor.handleBus]
    | NetRawBytes body => simp [Processor.step, Processor.handleBus]
    | ChainRichStatus s => simp [Processor.step, Processor.handleBus]
    | AuthVerifyBlockResp => simp [Processor.step, Processor.handleBus]
    | SnapshotReq => simp [Processor.step, Processor.handleBus]
    | other => simp [Processor.step, Processor.handleBus]
  | bridge m =>
    cases m <;>
      simp [Processor.step, Processor.handleBridge, transmit_no_toBridgeT]

/-- Across any run, no message is ever sent on the tx-check response
channel. -/
theorem runOuts_no_toBridgeT (env : Env) (es : List Event) :
    ∀ (p : Processor) (msg : BridgeMsg),
    OutMsg.toBridgeT msg ∉ Processor.runOuts env p es := by
  induction es with
  | nil =>
    intro p msg
    simp [Processor.runOuts]
  | cons e rest ih =>
    intro p msg
    simp only [Processor.runOuts, List.mem_append]
    rintro (hmem | hmem)
    · exact step_no_toBridgeT env p e msg hmem
    · exact ih _ msg hmem

/-- Amended C6: check-block and sign requests are each answered
synchronously with exactly one response on their channels, a
check-transaction request only re-publishes the verification request on
the bus, and no event sequence ever produces a message on the tx-check
response channel, so the adapter call waiting there never returns. -/
theorem capability_responses (env : Env) (p : Processor) (b hash : List Nat) (h r : Nat)
    (es : List Event) :
    (Processor.handleBridge env p (BridgeMsg.CheckBlockReq b h)).2 =
      [OutMsg.toBridgeB (BridgeMsg.CheckBlockResp true)] ∧
    (Processor.handleBridge env p (BridgeMsg.SignReq hash)).2 =
      [OutMsg.toBridgeS (BridgeMsg.SignResp (p.sign env hash))] ∧
    (Processor.handleBridge env p (BridgeMsg.CheckTxReq b h r)).2 =
      [OutMsg.toBus Topic.ConsensusVerifyBlockReq (PubPayload.verifyBlockReq b h r)] ∧
    (∀ msg, OutMsg.toBridgeT msg ∉ Processor.runOuts env p es) :=
  ⟨rfl, rfl, rfl, fun msg => runOuts_no_toBridgeT env es p msg⟩

/-- Witness for the amended C6: the run handling a concrete CheckTxReq
contains no message on the tx-check response channel. -/
theorem capability_responses_witness :
    OutMsg.toBridgeT (BridgeMsg.CheckTxResp true) ∉
      Processor.runOuts env0 proc0 [Event.bridge (BridgeMsg.CheckTxReq [] 0 0)] :=
  (capability_responses env0 proc0 [] [] 0 0
    [Event.bridge (BridgeMsg.CheckTxReq [] 0 0)]).2.2.2 (BridgeMsg.CheckTxResp true)

/-- When the proof cache has no entry for a height, get_block yields
nothing. -/
theorem get_block_proof_none (env : Env) (p : Processor) (h : Nat) (bt : BlockTxs)
    (hpr : hmLookup p.proof h = none) : p.get_block env h bt = none := by
  unfold Processor.get_block
  cases hv : hmLookup p.version h <;> cases hph : hmLookup p.pre_hash h <;> simp [hpr]

/-- Every GetBlockResp emitted by a step from a state with an empty
proof cache carries none. -/
theorem step_getblockresp_none (env : Env) (p : Processor) (e : Event) (hpr : p.proof = []) :
    ∀ ob, OutMsg.toBridgeF (BridgeMsg.GetBlockResp ob) ∈ (Processor.step env p e).2 →
      ob = none := by
  intro ob hmem
  cases e with
  | bus m =>
    cases m with
    | AuthBlockTxs bt =>
      simp only [Processor.step, Processor.handleBus, Processor.handleBlockTxs] at hmem
      split at hmem
      · simp at hmem
      · split at hmem
        · simp only [List.mem_singleton, OutMsg.toBridgeF.injEq,
            BridgeMsg.GetBlockResp.injEq] at hmem
          subst hmem
          exact get_block_proof_none env _ _ _
            (by rw [show (p.cacheBlockTxs bt).proof = p.proof from rfl, hpr]; rfl)
        · simp at hmem
    | NetCompactSignedProposal body => simp [Processor.step, Processor.handleBus] at hmem
    | NetRawBytes body => simp [Processor.step, Processor.handleBus] at hmem
    | ChainRichStatus s => simp [Processor.step, Processor.handleBus] at hmem
    | AuthVerifyBlockResp => simp [Processor.step, Processor.handleBus] at hmem
    | SnapshotReq => simp [Processor.step, Processor.handleBus] at hmem
    | other => simp [Processor.step, Processor.handleBus] at hmem
  | bridge m =>
    cases m <;>
      try simp [Processor.step, Processor.handleBridge] at hmem
    case Transmit m2 =>
      cases m2 <;> simp [Processor.step, Processor.handleBridge, Processor.transmit] at hmem

/-- Every GetBlockResp emitted across a run from a state with an empty
proof cache carries none. -/
theorem runOuts_getblockresp_none (env : Env) (es : List Event) :
    ∀ (p : Processor), p.proof = [] →
    ∀ ob, OutMsg.toBridgeF (BridgeMsg.GetBlockResp ob) ∈ Processor.runOuts env p es →
      ob = none := by
  induction es with
  | nil =>
    intro p hp ob hmem
    simp [Processor.runOuts] at hmem
  | cons e rest ih =>
    intro p hp ob hmem
    simp only [Processor.runOuts, List.mem_append] at hmem
    rcases hmem with hmem | hmem
    · exact step_getblockresp_none env p e hp ob hmem
    · exact ih _ ((step_proof_eq env p e).trans hp) ob hmem

/-- C10: from a fresh processor, the proof cache stays empty in every
reachable state (commit is a no-op and nothing inserts proofs), so
get_block yields nothing for every height and every GetBlockResp ever
sent carries none. -/
theorem proof_cache_always_empty (env : Env) (pk : Nat) (es : List Event) :
    (Processor.run env (Processor.new env pk) es).proof = [] ∧
    (∀ h bt, (Processor.run env (Processor.new env pk) es).get_block env h bt = none) ∧
    (∀ ob, OutMsg.toBridgeF (BridgeMsg.GetBlockResp ob) ∈
        Processor.runOuts env (Processor.new env pk) es → ob = none) := by
  have hpe : (Processor.run env (Processor.new env pk) es).proof = [] :=
    run_proof_eq env es _
  refine ⟨hpe, fun h bt => ?_, fun ob hmem => runOuts_getblockresp_none env es _ rfl ob hmem⟩
  exact get_block_proof_none env _ h bt (by rw [hpe]; rfl)

/-- Witness for C10: after the concrete sequence `esC3` the proof cache
is empty, get_block yields nothing for height 5, and the GetBlockResp
actually emitted during the run carried none. -/
theorem proof_cache_always_empty_witness :
    (Processor.run env0 (Processor.new env0 0) esC3).proof = [] ∧
    (Processor.run env0 (Processor.new env0 0) esC3).get_block env0 5 bt5a = none ∧
    (none : Option Block) = none :=
  ⟨(proof_cache_always_empty env0 0 esC3).1,
    (proof_cache_always_empty env0 0 esC3).2.1 5 bt5a,
    (proof_cache_always_empty env0 0 esC3).2.2 none (by decide)⟩

/-- Witness for C4: with all three height-3 caches populated,
`get_block` yields the assembled block `blkW` with the claimed fields. -/
theorem get_block_spec_witness :
    (procFull.get_block env0 3 bt5a).isSome ∧
    (blkW.height = 3 ∧
      some blkW.prevhash = hmLookup procFull.pre_hash 3 ∧
      some blkW.version = hmLookup procFull.version 3 ∧
      blkW.body = bt5a.body ∧
      blkW.proposer = procFull.address) :=
  ⟨(get_block_spec env0 procFull 3 bt5a).1.mpr (by decide),
    (get_block_spec env0 procFull 3 bt5a).2 blkW (by decide)⟩

end CitaBft
